import Mathlib

/-!
# Shallow embedding of `BloomFilterHW.py`

The repository implements a Bloom filter (`class BloomFilter`) on top of two
external libraries: `BitHash` (a seeded hash function) and `BitVector` (a
fixed-length bit array).  We embed the class as a Lean structure over an
abstract key type `K`; the external `BitHash` is an arbitrary function
`hash : K → Nat → Nat` passed to the operations, exactly as the Python code
treats it (deterministic, pure).  The `BitVector` is a `List Bool` whose
length is the filter's `numBits`.

Python float arithmetic in `__bitsNeeded` and `falsePositiveRate` is modelled
over the reals (`ℝ`), with `x ** y` for positive `x` as `Real.rpow` and
Python's `int()` truncation toward zero as `pyInt`.
-/

namespace BloomFilterHW

/-- Python `int(x)` on a float: truncation toward zero. -/
noncomputable def pyInt (x : ℝ) : ℤ :=
  if 0 ≤ x then ⌊x⌋ else ⌈x⌉

/-- The state of a `BloomFilter` instance: the three constructor parameters
(`self.__numKeys`, `self.__numHashes`, `self.__maxFalsePositive`), the derived
size `self.__numBits`, the bit array `self.__bitVector` and the running
counter `self.__bitsSet`. -/
structure BloomFilter (K : Type) where
  numKeys : Nat
  numHashes : Nat
  maxFalsePositive : ℝ
  numBits : Nat
  bits : List Bool
  bitsSet : Nat

/-- `BloomFilter.__bitsNeeded`:
`bitsStillZero = 1 - maxFalsePositive**(1/numHashes)`;
`numBits = numHashes / (1 - bitsStillZero**(1/numKeys))`; `return int(numBits)`. -/
noncomputable def bitsNeeded (numKeys numHashes : Nat) (maxFalsePositive : ℝ) : ℤ :=
  let bitsStillZero : ℝ := 1 - maxFalsePositive ^ ((1 : ℝ) / numHashes)
  let numBits : ℝ := numHashes / (1 - bitsStillZero ^ ((1 : ℝ) / numKeys))
  pyInt numBits

/-- `BloomFilter.__init__`: store the three parameters, compute
`self.__numBits = self.__bitsNeeded(...)`, allocate
`BitVector(size=self.__numBits)` (all zero bits), set `self.__bitsSet = 0`.
(The `Int.toNat` reflects that `BitVector` takes a non-negative size; under
the valid-parameter precondition `bitsNeeded` is positive.) -/
noncomputable def mkBloomFilter (K : Type) (numKeys numHashes : Nat)
    (maxFalsePositive : ℝ) : BloomFilter K :=
  let nb : Nat := (bitsNeeded numKeys numHashes maxFalsePositive).toNat
  { numKeys := numKeys
    numHashes := numHashes
    maxFalsePositive := maxFalsePositive
    numBits := nb
    bits := List.replicate nb false
    bitsSet := 0 }

/-- The seed values iterated by both `insert` and `find`:
Python `range(1, self.__numHashes)`, i.e. `[1, 2, ..., numHashes - 1]`. -/
def seedList (numHashes : Nat) : List Nat :=
  List.range' 1 (numHashes - 1)

/-- `BloomFilter.insert`: for each `i` in `range(1, self.__numHashes)`,
`a = BitHash(key, i) % self.__numBits`; `self.__bitVector[a] = 1`;
`self.__bitsSet += 1`. -/
def insert (hash : K → Nat → Nat) (b : BloomFilter K) (key : K) : BloomFilter K :=
  (seedList b.numHashes).foldl
    (fun s i =>
      { s with
        bits := s.bits.set (hash key i % s.numBits) true
        bitsSet := s.bitsSet + 1 })
    b

/-- The loop body of `BloomFilter.find` over an explicit list of seeds:
`a = BitHash(key, i) % self.__numBits`; `if self.__bitVector[a] == 0: return
False`; after the loop, `return True`. -/
def findAux (hash : K → Nat → Nat) (b : BloomFilter K) (key : K) :
    List Nat → Bool
  | [] => true
  | i :: rest =>
    if b.bits.getD (hash key i % b.numBits) false = false then false
    else findAux hash b key rest

/-- `BloomFilter.find`: run the loop over `range(1, self.__numHashes)`. -/
def find (hash : K → Nat → Nat) (b : BloomFilter K) (key : K) : Bool :=
  findAux hash b key (seedList b.numHashes)

/-- `BloomFilter.numBitsSet`: `return self.__bitsSet`. -/
def numBitsSet (b : BloomFilter K) : Nat :=
  b.bitsSet

/-- `BloomFilter.falsePositiveRate`:
`bitsStillZero = (self.__numBits - self.numBitsSet()) / self.__numBits`;
`return (1 - bitsStillZero)**self.__numHashes`. -/
noncomputable def falsePositiveRate (b : BloomFilter K) : ℝ :=
  let bitsStillZero : ℝ := ((b.numBits : ℝ) - (numBitsSet b : ℝ)) / (b.numBits : ℝ)
  (1 - bitsStillZero) ^ b.numHashes

/-- A sequence of `insert` calls, in order. -/
def insertList (hash : K → Nat → Nat) (b : BloomFilter K) (keys : List K) :
    BloomFilter K :=
  keys.foldl (insert hash) b

/-- One call to any of the four public methods. -/
inductive BloomOp (K : Type) where
  | insertOp (key : K)
  | findOp (key : K)
  | numBitsSetOp
  | falsePositiveRateOp

/-- The state after one method call.  `find`, `numBitsSet` and
`falsePositiveRate` assign to no field of `self` in the source, so they leave
the state unchanged; `insert` mutates `self.__bitVector` and `self.__bitsSet`. -/
def applyOp (hash : K → Nat → Nat) (b : BloomFilter K) : BloomOp K → BloomFilter K
  | .insertOp key => insert hash b key
  | .findOp _ => b
  | .numBitsSetOp => b
  | .falsePositiveRateOp => b

/-- The state after a sequence of method calls. -/
def runOps (hash : K → Nat → Nat) (b : BloomFilter K) (ops : List (BloomOp K)) :
    BloomFilter K :=
  ops.foldl (applyOp hash) b

/-- Validity of the constructor parameters, as the spec states them:
`numKeys > 0`, `numHashes ≥ 1`, `0 < maxFalsePositive < 1`. -/
def ValidParams (numKeys numHashes : Nat) (maxFalsePositive : ℝ) : Prop :=
  0 < numKeys ∧ 1 ≤ numHashes ∧ 0 < maxFalsePositive ∧ maxFalsePositive < 1

/-- Setting the bits at a list of indices to `1`, in order (the bit-array
effect of the `insert` loop). -/
def setTrue (idxs : List Nat) (bs : List Bool) : List Bool :=
  idxs.foldl (fun bs a => bs.set a true) bs

/-- The bit positions probed for `key`: `BitHash(key, i) % numBits` for each
seed `i` in `range(1, numHashes)` — the index derivation shared by `insert`
and `find`. -/
def probes (hash : K → Nat → Nat) (numHashes numBits : Nat) (key : K) : List Nat :=
  (seedList numHashes).map fun i => hash key i % numBits

/- ### Basic lemmas about `seedList`, `setTrue`, `insert`, `find` -/

theorem length_seedList (d : Nat) : (seedList d).length = d - 1 := by
  simp [seedList]

theorem mem_seedList {d i : Nat} : i ∈ seedList d ↔ 1 ≤ i ∧ i ≤ d - 1 := by
  simp only [seedList, List.mem_range', one_mul]
  constructor
  · rintro ⟨j, hj, rfl⟩
    omega
  · rintro ⟨h1, h2⟩
    exact ⟨i - 1, by omega, by omega⟩

theorem setTrue_nil (bs : List Bool) : setTrue [] bs = bs := rfl

theorem setTrue_cons (a : Nat) (idxs : List Nat) (bs : List Bool) :
    setTrue (a :: idxs) bs = setTrue idxs (bs.set a true) := rfl

theorem length_setTrue (idxs : List Nat) (bs : List Bool) :
    (setTrue idxs bs).length = bs.length := by
  induction idxs generalizing bs with
  | nil => rfl
  | cons a rest ih => simp [setTrue_cons, ih]

theorem getElem?_setTrue (idxs : List Nat) (bs : List Bool) (j : Nat) :
    (setTrue idxs bs)[j]? = if j ∈ idxs then bs[j]?.map (fun _ => true) else bs[j]? := by
  induction idxs generalizing bs with
  | nil => simp [setTrue_nil]
  | cons a rest ih =>
    rw [setTrue_cons, ih]
    by_cases hja : j = a
    · subst hja
      by_cases hjr : j ∈ rest
      · simp [hjr, List.getElem?_set_self', Option.map_map, Function.comp_def]
      · simp only [hjr, List.getElem?_set_self', if_false]
        rw [if_pos (List.mem_cons_self j rest)]
        rfl
    · by_cases hjr : j ∈ rest <;>
        simp [hjr, hja, List.getElem?_set_ne (Ne.symm hja)]

theorem getD_setTrue_true_iff (idxs : List Nat) (bs : List Bool) (j : Nat) :
    (setTrue idxs bs).getD j false = true ↔
      (j ∈ idxs ∧ j < bs.length) ∨ bs.getD j false = true := by
  rw [List.getD_eq_getElem?_getD, List.getD_eq_getElem?_getD, getElem?_setTrue]
  by_cases hj : j ∈ idxs
  · by_cases hlen : j < bs.length
    · rw [List.getElem?_eq_getElem hlen]
      simp [hj, hlen]
    · rw [List.getElem?_eq_none (Nat.le_of_not_lt hlen)]
      simp [hj, hlen]
  · simp [hj]

theorem getD_setTrue_of_mem {idxs : List Nat} {bs : List Bool} {j : Nat}
    (hmem : j ∈ idxs) (hlen : j < bs.length) :
    (setTrue idxs bs).getD j false = true :=
  (getD_setTrue_true_iff idxs bs j).mpr (Or.inl ⟨hmem, hlen⟩)

theorem getD_setTrue_mono {idxs : List Nat} {bs : List Bool} {j : Nat}
    (h : bs.getD j false = true) :
    (setTrue idxs bs).getD j false = true :=
  (getD_setTrue_true_iff idxs bs j).mpr (Or.inr h)

theorem insert_eq_setTrue (hash : K → Nat → Nat) (b : BloomFilter K) (key : K) :
    insert hash b key =
      { b with
        bits := setTrue (probes hash b.numHashes b.numBits key) b.bits
        bitsSet := b.bitsSet + (b.numHashes - 1) } := by
  have general :
      ∀ (l : List Nat) (s : BloomFilter K), s.numBits = b.numBits →
        l.foldl
          (fun s i =>
            { s with
              bits := s.bits.set (hash key i % s.numBits) true
              bitsSet := s.bitsSet + 1 })
          s =
        { s with
          bits := setTrue (l.map fun i => hash key i % b.numBits) s.bits
          bitsSet := s.bitsSet + l.length } := by
    intro l
    induction l with
    | nil => intro s _; simp [setTrue_nil]
    | cons i rest ih =>
      intro s hnb
      simp only [List.foldl_cons, List.map_cons, setTrue_cons, List.length_cons]
      rw [ih _ (by simpa using hnb)]
      simp only [hnb]
      congr 1
      omega
  have h := general (seedList b.numHashes) b rfl
  rw [insert, h, probes, length_seedList]

theorem insert_numBits (hash : K → Nat → Nat) (b : BloomFilter K) (key : K) :
    (insert hash b key).numBits = b.numBits := by
  rw [insert_eq_setTrue]

theorem insert_numHashes (hash : K → Nat → Nat) (b : BloomFilter K) (key : K) :
    (insert hash b key).numHashes = b.numHashes := by
  rw [insert_eq_setTrue]

theorem insert_numKeys (hash : K → Nat → Nat) (b : BloomFilter K) (key : K) :
    (insert hash b key).numKeys = b.numKeys := by
  rw [insert_eq_setTrue]

theorem insert_maxFalsePositive (hash : K → Nat → Nat) (b : BloomFilter K) (key : K) :
    (insert hash b key).maxFalsePositive = b.maxFalsePositive := by
  rw [insert_eq_setTrue]

theorem insert_bitsSet (hash : K → Nat → Nat) (b : BloomFilter K) (key : K) :
    (insert hash b key).bitsSet = b.bitsSet + (b.numHashes - 1) := by
  rw [insert_eq_setTrue]

theorem insert_bits_length (hash : K → Nat → Nat) (b : BloomFilter K) (key : K) :
    (insert hash b key).bits.length = b.bits.length := by
  rw [insert_eq_setTrue]
  exact length_setTrue _ _

theorem findAux_eq_all (hash : K → Nat → Nat) (b : BloomFilter K) (key : K)
    (l : List Nat) :
    findAux hash b key l =
      l.all (fun i => b.bits.getD (hash key i % b.numBits) false) := by
  induction l with
  | nil => rfl
  | cons i rest ih =>
    rw [findAux, List.all_cons, ih]
    cases hbit : b.bits.getD (hash key i % b.numBits) false <;> simp [hbit]

theorem find_true_iff (hash : K → Nat → Nat) (b : BloomFilter K) (key : K) :
    find hash b key = true ↔
      ∀ i ∈ seedList b.numHashes,
        b.bits.getD (hash key i % b.numBits) false = true := by
  rw [find, findAux_eq_all, List.all_eq_true]

theorem find_false_iff (hash : K → Nat → Nat) (b : BloomFilter K) (key : K) :
    find hash b key = false ↔
      ∃ i ∈ seedList b.numHashes,
        b.bits.getD (hash key i % b.numBits) false = false := by
  rw [find, findAux_eq_all]
  simp [List.all_eq_true]

theorem insert_getD_mono (hash : K → Nat → Nat) (b : BloomFilter K) (key : K)
    {j : Nat} (h : b.bits.getD j false = true) :
    (insert hash b key).bits.getD j false = true := by
  rw [insert_eq_setTrue]
  exact getD_setTrue_mono h

theorem insert_getD_probe (hash : K → Nat → Nat) (b : BloomFilter K) (key : K)
    {j : Nat} (hmem : j ∈ probes hash b.numHashes b.numBits key)
    (hlen : j < b.bits.length) :
    (insert hash b key).bits.getD j false = true := by
  rw [insert_eq_setTrue]
  exact getD_setTrue_of_mem hmem hlen

theorem insertList_numBits (hash : K → Nat → Nat) (b : BloomFilter K)
    (keys : List K) : (insertList hash b keys).numBits = b.numBits := by
  induction keys generalizing b with
  | nil => rfl
  | cons k rest ih => rw [insertList, List.foldl_cons, ← insertList, ih,
      insert_numBits]

theorem insertList_numHashes (hash : K → Nat → Nat) (b : BloomFilter K)
    (keys : List K) : (insertList hash b keys).numHashes = b.numHashes := by
  induction keys generalizing b with
  | nil => rfl
  | cons k rest ih => rw [insertList, List.foldl_cons, ← insertList, ih,
      insert_numHashes]

theorem insertList_bits_length (hash : K → Nat → Nat) (b : BloomFilter K)
    (keys : List K) : (insertList hash b keys).bits.length = b.bits.length := by
  induction keys generalizing b with
  | nil => rfl
  | cons k rest ih => rw [insertList, List.foldl_cons, ← insertList, ih,
      insert_bits_length]

theorem insertList_getD_mono (hash : K → Nat → Nat) (b : BloomFilter K)
    (keys : List K) {j : Nat} (h : b.bits.getD j false = true) :
    (insertList hash b keys).bits.getD j false = true := by
  induction keys generalizing b with
  | nil => exact h
  | cons k rest ih =>
    rw [insertList, List.foldl_cons, ← insertList]
    exact ih _ (insert_getD_mono hash b k h)

theorem insertList_bitsSet_mono (hash : K → Nat → Nat) (b : BloomFilter K)
    (keys : List K) : b.bitsSet ≤ (insertList hash b keys).bitsSet := by
  induction keys generalizing b with
  | nil => exact Nat.le_refl _
  | cons k rest ih =>
    rw [insertList, List.foldl_cons, ← insertList]
    refine Nat.le_trans ?_ (ih (insert hash b k))
    rw [insert_bitsSet]
    exact Nat.le_add_right _ _

theorem applyOp_getD_mono (hash : K → Nat → Nat) (b : BloomFilter K)
    (op : BloomOp K) {j : Nat} (h : b.bits.getD j false = true) :
    (applyOp hash b op).bits.getD j false = true := by
  cases op with
  | insertOp key => exact insert_getD_mono hash b key h
  | findOp key => exact h
  | numBitsSetOp => exact h
  | falsePositiveRateOp => exact h

theorem applyOp_bitsSet_mono (hash : K → Nat → Nat) (b : BloomFilter K)
    (op : BloomOp K) : b.bitsSet ≤ (applyOp hash b op).bitsSet := by
  cases op with
  | insertOp key => rw [applyOp, insert_bitsSet]; exact Nat.le_add_right _ _
  | findOp key => exact Nat.le_refl _
  | numBitsSetOp => exact Nat.le_refl _
  | falsePositiveRateOp => exact Nat.le_refl _

theorem runOps_getD_mono (hash : K → Nat → Nat) (b : BloomFilter K)
    (ops : List (BloomOp K)) {j : Nat} (h : b.bits.getD j false = true) :
    (runOps hash b ops).bits.getD j false = true := by
  induction ops generalizing b with
  | nil => exact h
  | cons op rest ih =>
    rw [runOps, List.foldl_cons, ← runOps]
    exact ih _ (applyOp_getD_mono hash b op h)

theorem runOps_bitsSet_mono (hash : K → Nat → Nat) (b : BloomFilter K)
    (ops : List (BloomOp K)) : b.bitsSet ≤ (runOps hash b ops).bitsSet := by
  induction ops generalizing b with
  | nil => exact Nat.le_refl _
  | cons op rest ih =>
    rw [runOps, List.foldl_cons, ← runOps]
    exact Nat.le_trans (applyOp_bitsSet_mono hash b op) (ih (applyOp hash b op))

theorem insert_of_numHashes_one (hash : K → Nat → Nat) (b : BloomFilter K)
    (key : K) (hd : b.numHashes = 1) : insert hash b key = b := by
  rw [insert, hd]
  rfl

theorem find_of_numHashes_one (hash : K → Nat → Nat) (b : BloomFilter K)
    (key : K) (hd : b.numHashes = 1) : find hash b key = true := by
  rw [find, hd]
  rfl

theorem insertList_of_numHashes_one (hash : K → Nat → Nat) (b : BloomFilter K)
    (keys : List K) (hd : b.numHashes = 1) : insertList hash b keys = b := by
  induction keys with
  | nil => rfl
  | cons k rest ih =>
    rw [insertList, List.foldl_cons, insert_of_numHashes_one hash b k hd,
      ← insertList, ih]

theorem find_after_insert_general (hash : K → Nat → Nat) (b : BloomFilter K)
    (key : K) (keys : List K) (hlen : b.bits.length = b.numBits)
    (hpos : 0 < b.numBits) :
    find hash (insertList hash (insert hash b key) keys) key = true := by
  rw [find_true_iff]
  intro i hi
  rw [insertList_numHashes, insert_numHashes] at hi
  rw [insertList_numBits, insert_numBits]
  apply insertList_getD_mono
  apply insert_getD_probe
  · exact List.mem_map_of_mem _ hi
  · rw [hlen]
    exact Nat.mod_lt _ hpos

theorem insertList_bitsSet (hash : K → Nat → Nat) (b : BloomFilter K)
    (keys : List K) :
    (insertList hash b keys).bitsSet =
      b.bitsSet + keys.length * (b.numHashes - 1) := by
  induction keys generalizing b with
  | nil => simp [insertList]
  | cons k rest ih =>
    rw [insertList, List.foldl_cons, ← insertList, ih, insert_bitsSet,
      insert_numHashes, List.length_cons]
    ring

/- ### The sizing computation over the reals -/

theorem bitsNeeded_eq_floor (numKeys numHashes : Nat) (maxFP : ℝ)
    (hv : ValidParams numKeys numHashes maxFP) :
    bitsNeeded numKeys numHashes maxFP =
        ⌊(numHashes : ℝ) /
          (1 - (1 - maxFP ^ ((1 : ℝ) / numHashes)) ^ ((1 : ℝ) / numKeys))⌋ ∧
      1 ≤ bitsNeeded numKeys numHashes maxFP := by
  obtain ⟨hnk, hnh, hp0, hp1⟩ := hv
  have hnhR : (1 : ℝ) ≤ (numHashes : ℝ) := by exact_mod_cast hnh
  have hnkR : (0 : ℝ) < (numKeys : ℝ) := by exact_mod_cast hnk
  have ha1 : maxFP ^ ((1 : ℝ) / numHashes) < 1 :=
    Real.rpow_lt_one hp0.le hp1 (by positivity)
  have ha0 : 0 < maxFP ^ ((1 : ℝ) / numHashes) := Real.rpow_pos_of_pos hp0 _
  have hphi0 : 0 < 1 - maxFP ^ ((1 : ℝ) / numHashes) := by linarith
  have hphi1 : 1 - maxFP ^ ((1 : ℝ) / numHashes) < 1 := by linarith
  have hc0 : 0 < (1 - maxFP ^ ((1 : ℝ) / numHashes)) ^ ((1 : ℝ) / numKeys) :=
    Real.rpow_pos_of_pos hphi0 _
  have hc1 : (1 - maxFP ^ ((1 : ℝ) / numHashes)) ^ ((1 : ℝ) / numKeys) < 1 :=
    Real.rpow_lt_one hphi0.le hphi1 (by positivity)
  have hden0 : 0 < 1 - (1 - maxFP ^ ((1 : ℝ) / numHashes)) ^ ((1 : ℝ) / numKeys) := by
    linarith
  have hnh_le :
      (numHashes : ℝ) ≤ (numHashes : ℝ) /
        (1 - (1 - maxFP ^ ((1 : ℝ) / numHashes)) ^ ((1 : ℝ) / numKeys)) := by
    rw [le_div_iff₀ hden0]
    nlinarith
  have hx1 :
      (1 : ℝ) ≤ (numHashes : ℝ) /
        (1 - (1 - maxFP ^ ((1 : ℝ) / numHashes)) ^ ((1 : ℝ) / numKeys)) := by
    linarith
  have hx0 :
      (0 : ℝ) ≤ (numHashes : ℝ) /
        (1 - (1 - maxFP ^ ((1 : ℝ) / numHashes)) ^ ((1 : ℝ) / numKeys)) := by
    linarith
  have heq : bitsNeeded numKeys numHashes maxFP =
      ⌊(numHashes : ℝ) /
        (1 - (1 - maxFP ^ ((1 : ℝ) / numHashes)) ^ ((1 : ℝ) / numKeys))⌋ := by
    rw [bitsNeeded, pyInt, if_pos hx0]
  refine ⟨heq, ?_⟩
  rw [heq]
  exact Int.le_floor.mpr (by exact_mod_cast hx1)

theorem mk_numBits_cast (K : Type) (numKeys numHashes : Nat) (maxFP : ℝ)
    (hv : ValidParams numKeys numHashes maxFP) :
    ((mkBloomFilter K numKeys numHashes maxFP).numBits : ℤ) =
      bitsNeeded numKeys numHashes maxFP := by
  have h1 := (bitsNeeded_eq_floor numKeys numHashes maxFP hv).2
  rw [mkBloomFilter]
  exact Int.toNat_of_nonneg (by omega)

theorem mk_numBits_pos (K : Type) (numKeys numHashes : Nat) (maxFP : ℝ)
    (hv : ValidParams numKeys numHashes maxFP) :
    0 < (mkBloomFilter K numKeys numHashes maxFP).numBits := by
  have h1 := (bitsNeeded_eq_floor numKeys numHashes maxFP hv).2
  show 0 < (bitsNeeded numKeys numHashes maxFP).toNat
  omega

theorem mk_bits_length (K : Type) (numKeys numHashes : Nat) (maxFP : ℝ) :
    (mkBloomFilter K numKeys numHashes maxFP).bits.length =
      (mkBloomFilter K numKeys numHashes maxFP).numBits := by
  rw [mkBloomFilter]
  exact List.length_replicate _ _

theorem bitsNeeded_example : bitsNeeded 1 2 (1 / 4 : ℝ) = 4 := by
  have hquarter : ((1 : ℝ) / 4) ^ ((1 : ℝ) / (2 : Nat)) = 1 / 2 := by
    have h2 : ((1 : ℝ) / 4) = ((1 : ℝ) / 2) ^ ((2 : Nat) : ℝ) := by
      rw [Real.rpow_natCast]
      norm_num
    rw [Nat.cast_ofNat, h2, ← Real.rpow_mul (by norm_num)]
    norm_num
  rw [bitsNeeded, hquarter]
  norm_num [pyInt]

/- ### Claim theorems -/

/-- C1: No false negatives — for every key `k` and every filter constructed
with valid parameters (`numKeys > 0`, `numHashes ≥ 1`,
`0 < maxFalsePositive < 1`), after `insert(k)` has been called (here preceded
by arbitrary prior inserts and followed by arbitrary further inserts),
`find(k)` returns true. -/
theorem no_false_negatives (K : Type) (hash : K → Nat → Nat)
    (numKeys numHashes : Nat) (maxFP : ℝ)
    (hv : ValidParams numKeys numHashes maxFP)
    (priorKeys : List K) (key : K) (laterKeys : List K) :
    find hash
      (insertList hash
        (insert hash
          (insertList hash (mkBloomFilter K numKeys numHashes maxFP) priorKeys)
          key)
        laterKeys)
      key = true := by
  apply find_after_insert_general
  · rw [insertList_bits_length, insertList_numBits, mk_bits_length]
  · rw [insertList_numBits]
    exact mk_numBits_pos K numKeys numHashes maxFP hv

theorem no_false_negatives_witness :
    ValidParams 1 2 (1 / 2 : ℝ) ∧
      find (fun _ _ => 0)
        (insertList (fun _ _ => 0)
          (insert (fun _ _ => 0)
            (insertList (fun _ _ => 0) (mkBloomFilter Nat 1 2 (1 / 2 : ℝ)) [5])
            7)
          [3])
        7 = true :=
  have hv : ValidParams 1 2 (1 / 2 : ℝ) :=
    ⟨Nat.one_pos, Nat.le_refl 1 |>.trans (by omega), by norm_num, by norm_num⟩
  ⟨hv, no_false_negatives Nat (fun _ _ => 0) 1 2 (1 / 2 : ℝ) hv [5] 7 [3]⟩

/-- C2: Seed-range off-by-one — both `insert` and `find` iterate the hash
seed over `[1, numHashes - 1]` inclusive (`range(1, numHashes)`), performing
exactly `numHashes - 1` hash computations per key, and both use the identical
index derivation `hash(key, seed) mod numBits` (the shared `probes` list). -/
theorem seed_range_off_by_one (K : Type) (hash : K → Nat → Nat)
    (b : BloomFilter K) (key : K) :
    (seedList b.numHashes).length = b.numHashes - 1 ∧
      (∀ i, i ∈ seedList b.numHashes ↔ 1 ≤ i ∧ i ≤ b.numHashes - 1) ∧
      (probes hash b.numHashes b.numBits key).length = b.numHashes - 1 ∧
      insert hash b key =
        { b with
          bits := setTrue (probes hash b.numHashes b.numBits key) b.bits
          bitsSet := b.bitsSet + (b.numHashes - 1) } ∧
      (find hash b key = true ↔
        ∀ j ∈ probes hash b.numHashes b.numBits key, b.bits.getD j false = true) := by
  refine ⟨length_seedList _, fun i => mem_seedList, ?_, insert_eq_setTrue hash b key, ?_⟩
  · rw [probes, List.length_map, length_seedList]
  · rw [find_true_iff]
    constructor
    · intro h j hj
      obtain ⟨i, hi, rfl⟩ := List.mem_map.mp hj
      exact h i hi
    · intro h i hi
      exact h _ (List.mem_map_of_mem _ hi)

/-- C3: Bit-array sizing — for every valid construction input the constructor
sets `numBits` to the integer truncation of
`numHashes / (1 - bitsStillZero^(1/numKeys))` with
`bitsStillZero = 1 - maxFalsePositive^(1/numHashes)`.  (The quotient is
provably positive, so Python's truncation toward zero coincides with the
floor used on the right-hand side.) -/
theorem numBits_sizing_formula (K : Type) (numKeys numHashes : Nat) (maxFP : ℝ)
    (hv : ValidParams numKeys numHashes maxFP) :
    ((mkBloomFilter K numKeys numHashes maxFP).numBits : ℤ) =
      ⌊(numHashes : ℝ) /
        (1 - (1 - maxFP ^ ((1 : ℝ) / numHashes)) ^ ((1 : ℝ) / numKeys))⌋ := by
  rw [mk_numBits_cast K numKeys numHashes maxFP hv]
  exact (bitsNeeded_eq_floor numKeys numHashes maxFP hv).1

theorem numBits_sizing_formula_witness :
    ValidParams 1 2 (1 / 4 : ℝ) ∧
      ((mkBloomFilter Nat 1 2 (1 / 4 : ℝ)).numBits : ℤ) =
        ⌊(((2 : Nat) : ℝ)) /
          (1 - (1 - (1 / 4 : ℝ) ^ ((1 : ℝ) / ((2 : Nat) : ℝ))) ^
            ((1 : ℝ) / ((1 : Nat) : ℝ)))⌋ :=
  have hv : ValidParams 1 2 (1 / 4 : ℝ) :=
    ⟨Nat.one_pos, by omega, by norm_num, by norm_num⟩
  ⟨hv, numBits_sizing_formula Nat 1 2 (1 / 4 : ℝ) hv⟩

/-- C4: Exact fill increment — a single `insert` increases `numBitsSet()` by
exactly `numHashes - 1`, regardless of hash collisions or of which bits were
already set, and `numBitsSet()` is non-decreasing across any sequence of
`insert` calls. -/
theorem bitsSet_exact_increment (K : Type) (hash : K → Nat → Nat)
    (b : BloomFilter K) (key : K) :
    numBitsSet (insert hash b key) = numBitsSet b + (b.numHashes - 1) ∧
      ∀ keys : List K, numBitsSet b ≤ numBitsSet (insertList hash b keys) :=
  ⟨insert_bitsSet hash b key, fun keys => insertList_bitsSet_mono hash b keys⟩

/-- C5: Membership query contract — `find(key)` returns false iff some bit at
an index `hash(key, seed) mod numBits`, for a seed in the range used by
`insert`, is 0, and returns true iff all of those indexed bits are 1.
(The source loop short-circuits, returning at the first zero bit; `findAux`
mirrors that loop.) -/
theorem find_membership_contract (K : Type) (hash : K → Nat → Nat)
    (b : BloomFilter K) (key : K) :
    (find hash b key = false ↔
      ∃ i ∈ seedList b.numHashes,
        b.bits.getD (hash key i % b.numBits) false = false) ∧
      (find hash b key = true ↔
        ∀ i ∈ seedList b.numHashes,
          b.bits.getD (hash key i % b.numBits) false = true) :=
  ⟨find_false_iff hash b key, find_true_iff hash b key⟩

/-- C6: Monotone-state invariant — across every sequence of operations
(`insert`, `find`, `numBitsSet`, `falsePositiveRate`), no bit of the bit
array is ever cleared (a bit that is 1 stays 1), and `bitsSetCount` (a `Nat`,
hence always ≥ 0) never decreases. -/
theorem monotone_state_invariant (K : Type) (hash : K → Nat → Nat)
    (b : BloomFilter K) (ops : List (BloomOp K)) :
    (∀ j, b.bits.getD j false = true →
      (runOps hash b ops).bits.getD j false = true) ∧
      numBitsSet b ≤ numBitsSet (runOps hash b ops) :=
  ⟨fun _ h => runOps_getD_mono hash b ops h, runOps_bitsSet_mono hash b ops⟩

theorem monotone_state_invariant_witness :
    ((runOps (fun _ _ => 0) (⟨1, 2, (1 / 2 : ℝ), 2, [true, false], 3⟩ : BloomFilter Nat)
        [BloomOp.insertOp 5, BloomOp.findOp 6, BloomOp.numBitsSetOp,
          BloomOp.falsePositiveRateOp]).bits.getD 0 false = true) ∧
      numBitsSet (⟨1, 2, (1 / 2 : ℝ), 2, [true, false], 3⟩ : BloomFilter Nat) ≤
        numBitsSet (runOps (fun _ _ => 0)
          (⟨1, 2, (1 / 2 : ℝ), 2, [true, false], 3⟩ : BloomFilter Nat)
          [BloomOp.insertOp 5, BloomOp.findOp 6, BloomOp.numBitsSetOp,
            BloomOp.falsePositiveRateOp]) :=
  ⟨(monotone_state_invariant Nat (fun _ _ => 0)
      (⟨1, 2, (1 / 2 : ℝ), 2, [true, false], 3⟩ : BloomFilter Nat)
      [BloomOp.insertOp 5, BloomOp.findOp 6, BloomOp.numBitsSetOp,
        BloomOp.falsePositiveRateOp]).1 0 rfl,
    (monotone_state_invariant Nat (fun _ _ => 0)
      (⟨1, 2, (1 / 2 : ℝ), 2, [true, false], 3⟩ : BloomFilter Nat)
      [BloomOp.insertOp 5, BloomOp.findOp 6, BloomOp.numBitsSetOp,
        BloomOp.falsePositiveRateOp]).2⟩

/-- C7: Fresh-filter boundary — for every valid construction input, on a
freshly constructed filter with no inserts performed, `numBitsSet()` returns
0 and `falsePositiveRate()` returns 0 (the zero-bit fraction is 1, and
`(1 - 1)^numHashes = 0` since `numHashes ≥ 1`). -/
theorem fresh_filter_stats (K : Type) (numKeys numHashes : Nat) (maxFP : ℝ)
    (hv : ValidParams numKeys numHashes maxFP) :
    numBitsSet (mkBloomFilter K numKeys numHashes maxFP) = 0 ∧
      falsePositiveRate (mkBloomFilter K numKeys numHashes maxFP) = 0 := by
  refine ⟨rfl, ?_⟩
  have hpos := mk_numBits_pos K numKeys numHashes maxFP hv
  have hne : ((mkBloomFilter K numKeys numHashes maxFP).numBits : ℝ) ≠ 0 :=
    Nat.cast_ne_zero.mpr (Nat.pos_iff_ne_zero.mp hpos)
  have hnh : (mkBloomFilter K numKeys numHashes maxFP).numHashes ≠ 0 := by
    have := hv.2.1
    show numHashes ≠ 0
    omega
  have hbs : ((numBitsSet (mkBloomFilter K numKeys numHashes maxFP) : ℕ) : ℝ) = 0 := by
    norm_num [numBitsSet, mkBloomFilter]
  rw [falsePositiveRate, hbs, sub_zero, div_self hne, sub_self]
  exact zero_pow hnh

theorem fresh_filter_stats_witness :
    ValidParams 1 2 (1 / 4 : ℝ) ∧
      (numBitsSet (mkBloomFilter Nat 1 2 (1 / 4 : ℝ)) = 0 ∧
        falsePositiveRate (mkBloomFilter Nat 1 2 (1 / 4 : ℝ)) = 0) :=
  have hv : ValidParams 1 2 (1 / 4 : ℝ) :=
    ⟨Nat.one_pos, by omega, by norm_num, by norm_num⟩
  ⟨hv, fresh_filter_stats Nat 1 2 (1 / 4 : ℝ) hv⟩

/-- C8: Frame conditions — `find`, `numBitsSet` and `falsePositiveRate`
leave every field of the filter unchanged (their method-call semantics is the
identity on the state), `falsePositiveRate` computes
`(1 - (numBits - numBitsSet())/numBits)^numHashes`, and `insert` changes only
`bits` and `bitsSetCount`, leaving `numBits` and the three construction
parameters unchanged. -/
theorem frame_conditions (K : Type) (hash : K → Nat → Nat) (b : BloomFilter K)
    (key : K) :
    applyOp hash b (BloomOp.findOp key) = b ∧
      applyOp hash b BloomOp.numBitsSetOp = b ∧
      applyOp hash b BloomOp.falsePositiveRateOp = b ∧
      falsePositiveRate b =
        (1 - (((b.numBits : ℝ) - (numBitsSet b : ℝ)) / (b.numBits : ℝ))) ^ b.numHashes ∧
      (insert hash b key).numBits = b.numBits ∧
      (insert hash b key).numKeys = b.numKeys ∧
      (insert hash b key).numHashes = b.numHashes ∧
      (insert hash b key).maxFalsePositive = b.maxFalsePositive :=
  ⟨rfl, rfl, rfl, rfl, insert_numBits hash b key, insert_numKeys hash b key,
    insert_numHashes hash b key, insert_maxFalsePositive hash b key⟩

/-- C9: Degenerate case at `numHashes = 1` (a valid input per the spec's
precondition `numHashes ≥ 1`) — the seed range `range(1, 1)` is empty, so
`insert` is the identity on the state (it sets no bits), `numBitsSet()` stays
at 0 after any sequence of inserts, and `find` returns true for every key,
including keys never inserted. -/
theorem degenerate_single_hash (K : Type) (hash : K → Nat → Nat)
    (numKeys : Nat) (maxFP : ℝ) (_hv : ValidParams numKeys 1 maxFP)
    (keys : List K) (key : K) :
    insert hash (insertList hash (mkBloomFilter K numKeys 1 maxFP) keys) key =
        insertList hash (mkBloomFilter K numKeys 1 maxFP) keys ∧
      numBitsSet (insertList hash (mkBloomFilter K numKeys 1 maxFP) keys) = 0 ∧
      find hash (insertList hash (mkBloomFilter K numKeys 1 maxFP) keys) key = true := by
  have hid : insertList hash (mkBloomFilter K numKeys 1 maxFP) keys =
      mkBloomFilter K numKeys 1 maxFP :=
    insertList_of_numHashes_one hash _ keys rfl
  rw [hid]
  exact ⟨insert_of_numHashes_one hash _ key rfl, rfl,
    find_of_numHashes_one hash _ key rfl⟩

theorem degenerate_single_hash_witness :
    ValidParams 3 1 (1 / 2 : ℝ) ∧
      (insert (fun _ _ => 0)
          (insertList (fun _ _ => 0) (mkBloomFilter Nat 3 1 (1 / 2 : ℝ)) [1, 2]) 9 =
        insertList (fun _ _ => 0) (mkBloomFilter Nat 3 1 (1 / 2 : ℝ)) [1, 2] ∧
      numBitsSet (insertList (fun _ _ => 0) (mkBloomFilter Nat 3 1 (1 / 2 : ℝ)) [1, 2]) = 0 ∧
      find (fun _ _ => 0)
        (insertList (fun _ _ => 0) (mkBloomFilter Nat 3 1 (1 / 2 : ℝ)) [1, 2]) 9 = true) :=
  have hv : ValidParams 3 1 (1 / 2 : ℝ) :=
    ⟨by omega, by omega, by norm_num, by norm_num⟩
  ⟨hv, degenerate_single_hash Nat (fun _ _ => 0) 3 (1 / 2 : ℝ) hv [1, 2] 9⟩

/-- C10: `falsePositiveRate` is not bounded by 1 — because `bitsSetCount`
counts every bit write, including writes to already-set bits, there is a
valid construction (`numKeys = 1`, `numHashes = 2`, `maxFalsePositive = 1/4`,
giving `numBits = 4`) and a finite sequence of inserts (five inserts of the
same key) after which `bitsSetCount = 5 > 4 = numBits`, making the computed
zero-bit fraction negative and `falsePositiveRate()` return `25/16 > 1`. -/
theorem falsePositiveRate_exceeds_one :
    ∃ (numKeys numHashes : Nat) (maxFP : ℝ) (hash : Nat → Nat → Nat)
      (keys : List Nat),
      ValidParams numKeys numHashes maxFP ∧
        (insertList hash (mkBloomFilter Nat numKeys numHashes maxFP) keys).numBits <
          numBitsSet (insertList hash (mkBloomFilter Nat numKeys numHashes maxFP) keys) ∧
        1 < falsePositiveRate
          (insertList hash (mkBloomFilter Nat numKeys numHashes maxFP) keys) := by
  refine ⟨1, 2, 1 / 4, fun _ _ => 0, List.replicate 5 0,
    ⟨Nat.one_pos, by omega, by norm_num, by norm_num⟩, ?_, ?_⟩
  all_goals
    have hnb : (mkBloomFilter Nat 1 2 (1 / 4 : ℝ)).numBits = 4 := by
      show (bitsNeeded 1 2 (1 / 4 : ℝ)).toNat = 4
      rw [bitsNeeded_example]
      rfl
    have hbs : numBitsSet
        (insertList (fun _ _ => 0) (mkBloomFilter Nat 1 2 (1 / 4 : ℝ))
          (List.replicate 5 0)) = 5 := by
      show (insertList (fun _ _ => 0) (mkBloomFilter Nat 1 2 (1 / 4 : ℝ))
          (List.replicate 5 0)).bitsSet = 5
      rw [insertList_bitsSet]
      rfl
    have hnb' : (insertList (fun _ _ => 0) (mkBloomFilter Nat 1 2 (1 / 4 : ℝ))
        (List.replicate 5 0)).numBits = 4 := by
      rw [insertList_numBits, hnb]
    have hnh' : (insertList (fun _ _ => 0) (mkBloomFilter Nat 1 2 (1 / 4 : ℝ))
        (List.replicate 5 0)).numHashes = 2 := by
      rw [insertList_numHashes]
      rfl
  · rw [hnb', hbs]
    omega
  · rw [falsePositiveRate, hbs, hnb', hnh']
    norm_num

end BloomFilterHW
